import Mathlib

/-!
Verification development for the tag resolution and aggregation engine of the
desker-ai-agent repository.  Definitions are shallow embeddings of the Python
source files src/utils/korean_utils.py, src/core/tag_engine.py,
src/core/learning.py, src/core/aggregator.py, src/core/llm_client.py and the
tag/synonym helpers of src/core/database.py.  Python strings are modelled as
Lean strings restricted to the character classes the code manipulates
(ASCII plus Hangul syllables); floats are modelled by exact rationals.
-/

namespace Desker

/-! ### Text normalizer (src/utils/korean_utils.py) -/

/-- Characters of the Hangul syllable block, the class `[가-힣]` used by the
regexes in korean_utils.py. -/
def isHangulSyllable (c : Char) : Bool :=
  0xAC00 ≤ c.toNat && c.toNat ≤ 0xD7A3

/-- Python regex class `\s` (whitespace) restricted to its ASCII members,
which are the only whitespace characters the data contains. -/
def isPySpace (c : Char) : Bool :=
  c = ' ' || c = '\t' || c = '\n' || c = '\r' || c = '\x0b' || c = '\x0c'

/-- The bracket characters removed by the first substitution of
`normalize_text`: the regex class with both ASCII and fullwidth brackets. -/
def isBracketChar (c : Char) : Bool :=
  c = '(' || c = ')' || c = '（' || c = '）' || c = '[' || c = ']' ||
  c = '【' || c = '】' || c = '<' || c = '>' || c = '\x7b' || c = '\x7d'

/-- Python regex class `\w` (word character) restricted to ASCII
alphanumerics, the underscore and Hangul syllables; the source data only
contains these word characters. -/
def isWordChar (c : Char) : Bool :=
  c.isAlphanum || c = '_' || isHangulSyllable c

/-- One pass of `re.sub(r"\s+", " ", text)`: every maximal whitespace run
becomes a single space.  The flag records whether the previous character was
whitespace. -/
def squeezeAux : Bool → List Char → List Char
  | _, [] => []
  | inSpace, c :: cs =>
    if isPySpace c then
      if inSpace then squeezeAux true cs else ' ' :: squeezeAux true cs
    else
      c :: squeezeAux false cs

/-- Python `str.strip()`: drop leading and trailing whitespace. -/
def pyStrip (l : List Char) : List Char :=
  ((l.dropWhile isPySpace).reverse.dropWhile isPySpace).reverse

/-- `normalize_whitespace` of korean_utils.py: collapse whitespace runs to a
single space, then strip. -/
def normalize_whitespace (s : String) : String :=
  String.mk (pyStrip (squeezeAux false s.data))

/-- `normalize_text` of korean_utils.py: lower-case, replace brackets by
spaces, replace characters outside `\w`, `\s` and the Hangul block by spaces,
collapse whitespace and strip.  Empty input maps to the empty string. -/
def normalize_text (s : String) : String :=
  if s = "" then ""
  else
    let l1 := s.data.map Char.toLower
    let l2 := l1.map fun c => if isBracketChar c then ' ' else c
    let l3 := l2.map fun c => if isWordChar c || isPySpace c then c else ' '
    String.mk (pyStrip (squeezeAux false l3))

/-- The maximal runs of Hangul syllables of a character list, in order.  The
accumulator holds the current run reversed. -/
def hangulRunsAux : List Char → List Char → List (List Char)
  | cur, [] => if cur.isEmpty then [] else [cur.reverse]
  | cur, c :: cs =>
    if isHangulSyllable c then hangulRunsAux (c :: cur) cs
    else if cur.isEmpty then hangulRunsAux [] cs
    else cur.reverse :: hangulRunsAux [] cs

/-- All maximal Hangul-syllable runs of a string. -/
def hangulRuns (l : List Char) : List (List Char) :=
  hangulRunsAux [] l

/-- Order-preserving first-occurrence deduplication, the semantics of Python
`dict.fromkeys`. -/
def dedupFirstAux [DecidableEq α] : List α → List α → List α
  | _, [] => []
  | seen, x :: xs =>
    if x ∈ seen then dedupFirstAux seen xs
    else x :: dedupFirstAux (x :: seen) xs

/-- `extract_keywords` of korean_utils.py.  The source accepts a `min_length`
parameter (default 2) but its regex hard-codes `[가-힣]{2,}`, so the
parameter is never read: the function always returns the maximal Hangul runs
of length at least 2, deduplicated in first-occurrence order. -/
def extract_keywords (s : String) (min_length : Nat := 2) : List String :=
  ((hangulRuns s.data).filter fun r => 2 ≤ r.length).map String.mk
    |> dedupFirstAux []

/-! ### Data model (src/core/database.py) -/

/-- Row of `tag_dictionary`: `standard_tag` is unique, `is_active` is the
soft-delete flag. -/
structure Tag where
  id : Nat
  standard_tag : String
  category : Option String := none
  is_active : Bool := true
deriving DecidableEq, Repr

/-- Row of `tag_synonyms`: `synonym` is globally unique, `tag_id` references
`tag_dictionary(id)`. -/
structure SynRow where
  synonym : String
  tag_id : Nat
deriving DecidableEq, Repr

/-- The tag-dictionary slice of the SQLite database: the two tables the
matching engine and the feedback loop read and write. -/
structure Db where
  tags : List Tag := []
  synonyms : List SynRow := []
deriving DecidableEq, Repr

/-- Stable insertion into a list sorted by the boolean relation `le`. -/
def orderedInsertB (le : α → α → Bool) (x : α) : List α → List α
  | [] => [x]
  | y :: ys => if le x y then x :: y :: ys else y :: orderedInsertB le x ys

/-- Stable insertion sort by the boolean relation `le`; models an SQL
`ORDER BY`. -/
def sortByB (le : α → α → Bool) : List α → List α
  | [] => []
  | x :: xs => orderedInsertB le x (sortByB le xs)

/-- Strict lexicographic comparison of character lists by code point, the
order SQLite's BINARY collation induces on UTF-8 text. -/
def strLtB : List Char → List Char → Bool
  | [], [] => false
  | [], _ :: _ => true
  | _ :: _, [] => false
  | a :: xs, b :: ys =>
    if a.toNat < b.toNat then true
    else if b.toNat < a.toNat then false
    else strLtB xs ys

/-- `get_all_tags` of database.py with its default `active_only = True`:
the active rows of `tag_dictionary`, ordered by `standard_tag`. -/
def get_all_tags (db : Db) : List Tag :=
  sortByB (fun a b => !strLtB b.standard_tag.data a.standard_tag.data)
    (db.tags.filter fun t => t.is_active)

/-- `add_synonym` of database.py: `INSERT OR IGNORE INTO tag_synonyms`.
A row with the same (unique) synonym text makes the insert a no-op, and with
`PRAGMA foreign_keys=ON` a `tag_id` that references no `tag_dictionary` row
fails the insert as well; in both cases the table is unchanged. -/
def add_synonym (db : Db) (synonym : String) (tag_id : Nat) : Db :=
  if db.synonyms.any fun s => s.synonym == synonym then db
  else if db.tags.any fun t => t.id == tag_id then
    { db with synonyms := db.synonyms ++ [⟨synonym, tag_id⟩] }
  else db

/-! ### Fuzzy scoring (rapidfuzz `fuzz.ratio`, `process.extractOne`) -/

/-- Length of a longest common subsequence.  The fuel argument bounds the
recursion depth; each call decreases the combined length of the two lists, so
fuel equal to that combined length suffices. -/
def lcsLenF : Nat → List Char → List Char → Nat
  | 0, _, _ => 0
  | _ + 1, [], _ => 0
  | _ + 1, _ :: _, [] => 0
  | f + 1, a :: xs, b :: ys =>
    if a = b then lcsLenF f xs ys + 1
    else max (lcsLenF f (a :: xs) ys) (lcsLenF f xs (b :: ys))

/-- Length of a longest common subsequence of two character lists. -/
def lcsLen (xs ys : List Char) : Nat :=
  lcsLenF (xs.length + ys.length) xs ys

/-- Division of rationals expressed through `Rat.divInt` (the core `Rat.mul`
and `Rat.inv` are opaque to the kernel, `Rat.divInt` is not); extensionally
equal to `a / b`. -/
def qdiv (a b : ℚ) : ℚ :=
  Rat.divInt (a.num * b.den) (a.den * b.num)

/-- Subtraction of rationals through `Rat.divInt`; extensionally `a - b`. -/
def qsub (a b : ℚ) : ℚ :=
  Rat.divInt (a.num * b.den - b.num * a.den) (a.den * b.den)

/-- rapidfuzz `fuzz.ratio`: the normalized InDel similarity on the 0-100
scale.  With `d` the InDel distance, the score is
`(len1 + len2 - d) / (len1 + len2) * 100 = 200 * lcs / (len1 + len2)`;
two empty strings score 100. -/
def fuzz_ratio (a b : String) : ℚ :=
  if a.data.length + b.data.length = 0 then 100
  else Rat.divInt (200 * lcsLen a.data b.data) (a.data.length + b.data.length)

/-- rapidfuzz `process.extractOne` specialised to `scorer=fuzz.ratio`:
scans the choices keeping the first highest-scoring one, starting the index
count at `i`. -/
def extractOneGo (query : String) : Nat → List String → Option (String × ℚ × Nat)
  | _, [] => none
  | i, c :: cs =>
    let s := fuzz_ratio query c
    match extractOneGo query (i + 1) cs with
    | none => some (c, s, i)
    | some (c', s', i') => if s < s' then some (c', s', i') else some (c, s, i)

/-- `process.extractOne(query, choices, scorer=fuzz.ratio)`: the choice with
the maximal score together with its score and index; `none` on an empty
choice list; the first choice wins ties. -/
def extractOne (query : String) (choices : List String) : Option (String × ℚ × Nat) :=
  extractOneGo query 0 choices

/-! ### Matching engine (src/core/tag_engine.py) -/

/-- `FUZZY_MATCH_THRESHOLD` of src/config.py. -/
def FUZZY_MATCH_THRESHOLD : ℚ := 80

/-- The result dictionary of `find_matching_tag`. -/
structure TagMatch where
  tag_id : Nat
  standard_tag : String
  confidence : ℚ
  method : String
deriving DecidableEq, Repr

/-- `find_matching_tag` of tag_engine.py: the exact → synonym → fuzzy
cascade.  Empty raw text short-circuits to no-match.  The synonym stage skips
entries whose owning tag is not among the active tags, and the fuzzy stage
accepts the best-scoring candidate iff its score reaches the threshold. -/
def find_matching_tag (raw_text : String) (db : Db) : Option TagMatch :=
  if raw_text = "" then none
  else
    let normalized := normalize_text raw_text
    let tags := get_all_tags db
    match tags.find? fun t => normalize_text t.standard_tag == normalized with
    | some t => some ⟨t.id, t.standard_tag, 1, "exact"⟩
    | none =>
      match db.synonyms.findSome? fun s =>
          if normalize_text s.synonym == normalized then
            (tags.find? fun t => t.id == s.tag_id).map
              fun t => (⟨s.tag_id, t.standard_tag, Rat.divInt 95 100, "synonym"⟩ : TagMatch)
          else none with
      | some m => some m
      | none =>
        if tags.isEmpty then none
        else
          match extractOne normalized (tags.map fun t => normalize_text t.standard_tag) with
          | none => none
          | some (_, score, idx) =>
            if FUZZY_MATCH_THRESHOLD ≤ score then
              match tags.get? idx with
              | some t => some ⟨t.id, t.standard_tag, qdiv score 100, "fuzzy"⟩
              | none => none
            else none

/-! ### Shared lemmas -/

theorem qdiv_eq (a b : ℚ) : qdiv a b = a / b := by
  rcases eq_or_ne b 0 with hb | hb
  · subst hb; simp [qdiv]
  · have h1 : (a.den : ℚ) ≠ 0 := by exact_mod_cast a.den_nz
    have h2 : (b.den : ℚ) ≠ 0 := by exact_mod_cast b.den_nz
    have h3 : b.num ≠ 0 := Rat.num_ne_zero.mpr hb
    have h3q : (b.num : ℚ) ≠ 0 := by exact_mod_cast h3
    have ha : (a.num : ℚ) = a * a.den := (div_eq_iff h1).mp (Rat.num_div_den a)
    have hb2 : (b.num : ℚ) = b * b.den := (div_eq_iff h2).mp (Rat.num_div_den b)
    rw [qdiv, Rat.divInt_eq_div]
    push_cast
    field_simp
    rw [ha, hb2]
    ring

theorem qsub_eq (a b : ℚ) : qsub a b = a - b := by
  have h1 : (a.den : ℚ) ≠ 0 := by exact_mod_cast a.den_nz
  have h2 : (b.den : ℚ) ≠ 0 := by exact_mod_cast b.den_nz
  have ha : (a.num : ℚ) = a * a.den := (div_eq_iff h1).mp (Rat.num_div_den a)
  have hb2 : (b.num : ℚ) = b * b.den := (div_eq_iff h2).mp (Rat.num_div_den b)
  rw [qsub, Rat.divInt_eq_div]
  push_cast
  field_simp
  rw [ha, hb2]
  ring

theorem mem_orderedInsertB {le : α → α → Bool} {x a : α} {l : List α} :
    a ∈ orderedInsertB le x l ↔ a = x ∨ a ∈ l := by
  induction l with
  | nil => simp [orderedInsertB]
  | cons y ys ih =>
    by_cases h : le x y = true
    · simp [orderedInsertB, h]
    · simp only [orderedInsertB, if_neg h, List.mem_cons, ih]
      tauto

theorem mem_sortByB {le : α → α → Bool} {a : α} {l : List α} :
    a ∈ sortByB le l ↔ a ∈ l := by
  induction l with
  | nil => simp [sortByB]
  | cons x xs ih =>
    simp only [sortByB, mem_orderedInsertB, ih, List.mem_cons]

theorem mem_get_all_tags {db : Db} {t : Tag} :
    t ∈ get_all_tags db ↔ t ∈ db.tags ∧ t.is_active = true := by
  simp [get_all_tags, mem_sortByB, List.mem_filter]

/-! ### Claim C1 -/

/-- C1 (amended: the raw text must be non-empty; for the empty raw text the
function short-circuits to no-match even when an active tag normalizes to
the empty string).  For every non-empty raw text whose normalized form
equals the normalized text of some active StandardTag, `find_matching_tag`
returns a tag with that normalized text, confidence 1.0 and method `exact`,
whatever the synonym table and the fuzzy scores of other tags are: the
synonym and fuzzy stages are never consulted. -/
theorem exact_match_precedence (db : Db) (raw : String)
    (hraw : raw ≠ "")
    (hex : ∃ t ∈ get_all_tags db, normalize_text t.standard_tag = normalize_text raw) :
    ∃ t ∈ get_all_tags db,
      normalize_text t.standard_tag = normalize_text raw ∧
      find_matching_tag raw db = some ⟨t.id, t.standard_tag, 1, "exact"⟩ := by
  cases hfind : (get_all_tags db).find?
      (fun t => normalize_text t.standard_tag == normalize_text raw) with
  | none =>
    exfalso
    rw [List.find?_eq_none] at hfind
    obtain ⟨t, ht, hn⟩ := hex
    exact hfind t ht (by simp [hn])
  | some t =>
    refine ⟨t, List.mem_of_find?_eq_some hfind, ?_, ?_⟩
    · have := List.find?_some hfind
      simpa using this
    · unfold find_matching_tag
      rw [if_neg hraw]
      simp only [hfind]

/-- C1 counterexample to the unamended claim: with an active tag whose text
`()` normalizes to the empty string, the empty raw text satisfies the
claim's premise (its normalized form equals the normalized text of an
active tag) but `find_matching_tag` returns no-match instead of that tag. -/
theorem exact_match_empty_raw_cex :
    (⟨1, "()", none, true⟩ : Tag) ∈ get_all_tags ⟨[⟨1, "()", none, true⟩], []⟩ ∧
    normalize_text "()" = normalize_text "" ∧
    find_matching_tag "" ⟨[⟨1, "()", none, true⟩], []⟩ = none := by
  refine ⟨?_, by decide, by decide⟩
  rw [mem_get_all_tags]
  exact ⟨by decide, rfl⟩

/-- Witness for C1 at a concrete dictionary: the matcher succeeds on a raw
text equal to a stored tag. -/
theorem exact_match_precedence_witness :
    (find_matching_tag "책상" ⟨[⟨1, "책상", none, true⟩], []⟩).isSome = true := by
  obtain ⟨t, hmem, hnorm, heq⟩ :=
    exact_match_precedence ⟨[⟨1, "책상", none, true⟩], []⟩ "책상" (by decide)
      ⟨⟨1, "책상", none, true⟩, by rw [mem_get_all_tags]; exact ⟨by decide, rfl⟩, by decide⟩
  rw [heq]
  rfl

/-! ### Claim C2 -/

/-- Binary maximum on ℚ written with a kernel-reducible comparison. -/
def qmax (a b : ℚ) : ℚ :=
  if a ≤ b then b else a

theorem qmax_eq (a b : ℚ) : qmax a b = max a b := by
  unfold qmax
  rcases le_total a b with h | h
  · rw [if_pos h, max_eq_right h]
  · by_cases h2 : a ≤ b
    · rw [if_pos h2, max_eq_right h2]
    · rw [if_neg h2, max_eq_left h]

/-- The maximum fuzz.ratio score between the normalized raw text and the
normalized text of any active tag, as the spec's fuzzy stage describes it
(0 for an empty dictionary; scores are never negative). -/
def maxFuzzyScore (db : Db) (raw : String) : ℚ :=
  ((get_all_tags db).map fun t =>
    fuzz_ratio (normalize_text raw) (normalize_text t.standard_tag)).foldr qmax 0

theorem fuzz_ratio_nonneg (a b : String) : 0 ≤ fuzz_ratio a b := by
  unfold fuzz_ratio
  split
  · norm_num
  · rw [Rat.divInt_eq_div]
    apply div_nonneg
    · positivity
    · positivity

theorem foldr_qmax_eq_foldr_max (l : List ℚ) : l.foldr qmax 0 = l.foldr max 0 := by
  induction l with
  | nil => rfl
  | cons y ys ih =>
    show qmax y (ys.foldr qmax 0) = max y (ys.foldr max 0)
    rw [qmax_eq, ih]

theorem le_foldr_max {l : List ℚ} {x : ℚ} (hx : x ∈ l) : x ≤ l.foldr max 0 := by
  induction l with
  | nil => cases hx
  | cons y ys ih =>
    rcases List.mem_cons.mp hx with h | h
    · subst h
      exact le_max_left _ _
    · exact le_trans (ih h) (le_max_right _ _)

theorem foldr_max_mem {l : List ℚ} (hpos : ∀ x ∈ l, 0 ≤ x) (hne : l ≠ []) :
    l.foldr max 0 ∈ l := by
  induction l with
  | nil => exact absurd rfl hne
  | cons y ys ih =>
    by_cases hys : ys = []
    · subst hys
      show max y (List.foldr max 0 []) ∈ [y]
      simp only [List.foldr_nil]
      rw [max_eq_left (hpos y (by simp))]
      simp
    · have hmem := ih (fun x hx => hpos x (List.mem_cons_of_mem _ hx)) hys
      show max y (ys.foldr max 0) ∈ y :: ys
      rcases le_total (ys.foldr max 0) y with h | h
      · rw [max_eq_left h]; simp
      · rw [max_eq_right h]; exact List.mem_cons_of_mem _ hmem

/-- Specification of the rapidfuzz extractOne scan: on a non-empty choice
list it returns a choice attaining the maximal score, together with that
score and the choice's index. -/
theorem extractOneGo_spec (query : String) :
    ∀ (cs : List String) (i : Nat), cs ≠ [] →
    ∃ c j, extractOneGo query i cs = some (c, fuzz_ratio query c, j) ∧
      i ≤ j ∧ cs.get? (j - i) = some c ∧
      ∀ c' ∈ cs, fuzz_ratio query c' ≤ fuzz_ratio query c := by
  intro cs
  induction cs with
  | nil => intro i h; exact absurd rfl h
  | cons c cs ih =>
    intro i _
    by_cases hcs : cs = []
    · subst hcs
      refine ⟨c, i, by simp [extractOneGo], le_refl i, by simp, ?_⟩
      intro c' hc'
      rw [List.mem_singleton] at hc'
      subst hc'
      exact le_refl _
    · obtain ⟨c2, j, hgo, hij, hget, hmax⟩ := ih (i + 1) hcs
      by_cases hlt : fuzz_ratio query c < fuzz_ratio query c2
      · refine ⟨c2, j, ?_, by omega, ?_, ?_⟩
        · simp only [extractOneGo, hgo, if_pos hlt]
        · have hji : j - i = (j - (i + 1)) + 1 := by omega
          rw [hji]
          simpa using hget
        · intro x hx
          rcases List.mem_cons.mp hx with h | h
          · subst h; exact le_of_lt hlt
          · exact hmax x h
      · refine ⟨c, i, ?_, le_refl _, by simp, ?_⟩
        · simp only [extractOneGo, hgo, if_neg hlt]
        · intro x hx
          rcases List.mem_cons.mp hx with h | h
          · subst h; exact le_refl _
          · exact le_trans (hmax x h) (not_lt.mp hlt)

/-- C2: in the fuzzy stage of `find_matching_tag` (reached when the raw text
is non-empty, no active tag matches exactly, no synonym resolves, and the
dictionary is non-empty), if the maximal fuzz.ratio score between the
normalized raw text and the active tags' normalized texts is at least the
threshold 80, the best-scoring tag is returned with confidence score/100 and
method `fuzzy`; if the maximal score is strictly below 80 the result is
no-match. -/
theorem fuzzy_threshold_boundary (db : Db) (raw : String)
    (hraw : raw ≠ "")
    (hexact : ∀ t ∈ get_all_tags db,
      ¬ normalize_text t.standard_tag = normalize_text raw)
    (hsyn : ∀ s ∈ db.synonyms, normalize_text s.synonym = normalize_text raw →
      ∀ t ∈ get_all_tags db, ¬ t.id = s.tag_id)
    (hne : get_all_tags db ≠ []) :
    (80 ≤ maxFuzzyScore db raw →
      ∃ t ∈ get_all_tags db,
        fuzz_ratio (normalize_text raw) (normalize_text t.standard_tag) =
          maxFuzzyScore db raw ∧
        find_matching_tag raw db =
          some ⟨t.id, t.standard_tag, qdiv (maxFuzzyScore db raw) 100, "fuzzy"⟩) ∧
    (maxFuzzyScore db raw < 80 → find_matching_tag raw db = none) := by
  have hfind : (get_all_tags db).find?
      (fun t => normalize_text t.standard_tag == normalize_text raw) = none := by
    rw [List.find?_eq_none]
    intro t ht
    simpa using hexact t ht
  have hsynnone : db.synonyms.findSome? (fun s =>
      if normalize_text s.synonym == normalize_text raw then
        ((get_all_tags db).find? fun t => t.id == s.tag_id).map
          fun t => (⟨s.tag_id, t.standard_tag, Rat.divInt 95 100, "synonym"⟩ : TagMatch)
      else none) = none := by
    rw [List.findSome?_eq_none]
    intro s hs
    by_cases heq : normalize_text s.synonym == normalize_text raw
    · rw [if_pos heq]
      have : (get_all_tags db).find? (fun t => t.id == s.tag_id) = none := by
        rw [List.find?_eq_none]
        intro t ht
        simpa using hsyn s hs (by simpa using heq) t ht
      rw [this]
      rfl
    · rw [if_neg heq]
  have hempty : (get_all_tags db).isEmpty = false := by
    cases h : get_all_tags db with
    | nil => exact absurd h hne
    | cons a l => rfl
  obtain ⟨c, j, hgo, -, hget, hmax⟩ :=
    extractOneGo_spec (normalize_text raw)
      ((get_all_tags db).map fun t => normalize_text t.standard_tag) 0
      (by simpa using hne)
  rw [Nat.sub_zero] at hget
  rw [List.get?_map] at hget
  cases hti : (get_all_tags db).get? j with
  | none => rw [hti] at hget; cases hget
  | some t =>
    rw [hti] at hget
    have hct : c = normalize_text t.standard_tag := by
      simpa using hget.symm
    have htm : t ∈ get_all_tags db := List.get?_mem hti
    have hscore : fuzz_ratio (normalize_text raw) c = maxFuzzyScore db raw := by
      rw [maxFuzzyScore, foldr_qmax_eq_foldr_max]
      apply le_antisymm
      · apply le_foldr_max
        rw [List.mem_map]
        exact ⟨t, htm, by rw [hct]⟩
      · have hmem := @foldr_max_mem ((get_all_tags db).map fun t =>
          fuzz_ratio (normalize_text raw) (normalize_text t.standard_tag))
          (by intro x hx; rw [List.mem_map] at hx; obtain ⟨u, -, hu⟩ := hx;
              rw [← hu]; exact fuzz_ratio_nonneg _ _)
          (by simpa using hne)
        rw [List.mem_map] at hmem
        obtain ⟨u, hu, hux⟩ := hmem
        rw [← hux]
        exact hmax _ (List.mem_map_of_mem _ hu)
    have hform : find_matching_tag raw db =
        if 80 ≤ maxFuzzyScore db raw then
          some ⟨t.id, t.standard_tag, qdiv (maxFuzzyScore db raw) 100, "fuzzy"⟩
        else none := by
      unfold find_matching_tag FUZZY_MATCH_THRESHOLD
      rw [if_neg hraw]
      simp only [hfind, hsynnone, hempty, Bool.false_eq_true, if_false]
      unfold extractOne
      rw [hgo]
      dsimp only
      rw [hscore, hti]
    constructor
    · intro hth
      refine ⟨t, htm, by rw [← hct]; exact hscore, ?_⟩
      rw [hform, if_pos hth]
    · intro hth
      rw [hform, if_neg (not_le.mpr hth)]

/-- Witness for C2: a dictionary with the tag `상판 휨` and a raw text whose
fuzz.ratio against it is exactly 80 is matched by the fuzzy stage. -/
theorem fuzzy_threshold_boundary_witness :
    80 ≤ maxFuzzyScore ⟨[⟨1, "상판 휨", none, true⟩], []⟩ "상판 휨가나" ∧
    (find_matching_tag "상판 휨가나" ⟨[⟨1, "상판 휨", none, true⟩], []⟩).isSome = true := by
  obtain ⟨t, -, -, heq⟩ :=
    (fuzzy_threshold_boundary ⟨[⟨1, "상판 휨", none, true⟩], []⟩ "상판 휨가나"
      (by decide) (by decide) (by decide) (by decide)).1 (by decide)
  exact ⟨by decide, by rw [heq]; rfl⟩

/-! ### Claim C3 -/

/-- One row of `repair_cases`: nullable free-text fields as in the schema. -/
structure RepairCase where
  id : Nat := 0
  product_group : Option String := none
  product : Option String := none
  action_notes : Option String := none
  request_details : Option String := none
  judgment_type : Option String := none
  created_at : Nat := 0
deriving DecidableEq, Repr

/-- Python `needle in hay` on strings: contiguous-substring test. -/
def infixCheck (needle : List Char) : List Char → Bool
  | [] => needle.isEmpty
  | c :: t => needle.isPrefixOf (c :: t) || infixCheck needle t

theorem infixCheck_iff (n h : List Char) : infixCheck n h = true ↔ n <:+: h := by
  induction h with
  | nil =>
    simp only [infixCheck, List.isEmpty_iff, List.infix_nil]
  | cons c t ih =>
    simp only [infixCheck, Bool.or_eq_true, List.isPrefixOf_iff_prefix, ih,
      List.infix_cons_iff]

/-- The combined text of `process_case_rule_based`: action notes and request
details joined by one space (empty string for missing fields), stripped. -/
def combined_text (c : RepairCase) : String :=
  String.mk (pyStrip ((c.action_notes.getD "").data ++ ' ' :: (c.request_details.getD "").data))

/-- The match dictionaries produced by `process_case_rule_based`, which carry
the matched raw text in addition to the fields of `TagMatch`. -/
structure CaseMatch where
  tag_id : Nat
  standard_tag : String
  confidence : ℚ
  method : String
  ai_raw_text : String
deriving DecidableEq, Repr

/-- `process_case_rule_based` of tag_engine.py: every active tag whose
normalized text occurs as a substring of the normalized combined case text
becomes a `contains` match of confidence 0.85; an empty combined text yields
no matches. -/
def process_case_rule_based (case : RepairCase) (db : Db) : List CaseMatch :=
  let combined := combined_text case
  if combined = "" then []
  else
    (get_all_tags db).filterMap fun t =>
      if infixCheck (normalize_text t.standard_tag).data (normalize_text combined).data then
        some ⟨t.id, t.standard_tag, Rat.divInt 85 100, "contains", t.standard_tag⟩
      else none

/-- C3: `process_case_rule_based` returns the empty list when the combined
action-notes and request-details text is empty, and otherwise returns
exactly the matches of the active tags whose normalized text is a substring
of the normalized combined text, each with fixed confidence 0.85 and method
`contains` (zero, one or many tags). -/
theorem rule_based_contains_spec (db : Db) (case : RepairCase) :
    (combined_text case = "" → process_case_rule_based case db = []) ∧
    (combined_text case ≠ "" →
      ∀ m : CaseMatch, m ∈ process_case_rule_based case db ↔
        ∃ t ∈ get_all_tags db,
          (normalize_text t.standard_tag).data <:+:
            (normalize_text (combined_text case)).data ∧
          m = ⟨t.id, t.standard_tag, Rat.divInt 85 100, "contains", t.standard_tag⟩) := by
  constructor
  · intro h
    unfold process_case_rule_based
    rw [if_pos h]
  · intro h m
    unfold process_case_rule_based
    rw [if_neg h, List.mem_filterMap]
    constructor
    · rintro ⟨t, ht, hsome⟩
      by_cases hin : infixCheck (normalize_text t.standard_tag).data
          (normalize_text (combined_text case)).data = true
      · rw [if_pos hin] at hsome
        exact ⟨t, ht, (infixCheck_iff _ _).mp hin, (Option.some.inj hsome).symm⟩
      · rw [if_neg hin] at hsome
        cases hsome
    · rintro ⟨t, ht, hinf, hm⟩
      refine ⟨t, ht, ?_⟩
      rw [if_pos ((infixCheck_iff _ _).mpr hinf), hm]

/-- Witness for C3: a case whose action notes contain the tag text `나사`
receives the corresponding `contains` match. -/
theorem rule_based_contains_witness :
    combined_text ⟨0, none, none, some "나사 불량", none, none, 0⟩ ≠ "" ∧
    (⟨1, "나사", Rat.divInt 85 100, "contains", "나사"⟩ : CaseMatch) ∈
      process_case_rule_based ⟨0, none, none, some "나사 불량", none, none, 0⟩
        ⟨[⟨1, "나사", none, true⟩], []⟩ := by
  refine ⟨by decide, ?_⟩
  apply ((rule_based_contains_spec ⟨[⟨1, "나사", none, true⟩], []⟩
      ⟨0, none, none, some "나사 불량", none, none, 0⟩).2 (by decide) _).mpr
  refine ⟨⟨1, "나사", none, true⟩, ?_, ?_, rfl⟩
  · rw [mem_get_all_tags]
    exact ⟨by decide, rfl⟩
  · exact (infixCheck_iff _ _).mp (by decide)

/-! ### Claim C4 -/

/-- `update_synonym_from_feedback` of learning.py: register the raw text of
a confirmed AI proposal as a synonym of the confirmed tag unless the raw
text is empty, normalizes to the empty string, or already resolves to the
confirmed tag by the exact or synonym method.  The insert goes through
`add_synonym` (INSERT OR IGNORE) and any remaining database error is
swallowed, so the operation never raises. -/
def update_synonym_from_feedback (db : Db) (ai_raw_text : String)
    (confirmed_tag_id : Nat) : Db :=
  if ai_raw_text = "" then db
  else
    let normalized := normalize_text ai_raw_text
    if normalized = "" then db
    else
      match find_matching_tag ai_raw_text db with
      | some m =>
        if m.tag_id == confirmed_tag_id && (m.method == "exact" || m.method == "synonym")
        then db
        else add_synonym db normalized confirmed_tag_id
      | none => add_synonym db normalized confirmed_tag_id

theorem add_synonym_noop_of_present {db : Db} {syn : String} {tid : Nat}
    (hp : ∃ s ∈ db.synonyms, s.synonym = syn) :
    add_synonym db syn tid = db := by
  obtain ⟨s, hs, he⟩ := hp
  have hany : (db.synonyms.any fun x => x.synonym == syn) = true := by
    rw [List.any_eq_true]
    exact ⟨s, hs, by simp [he]⟩
  unfold add_synonym
  rw [hany]
  simp

theorem update_synonym_noop_of_present {db : Db} {raw : String} {tid : Nat}
    (hp : ∃ s ∈ db.synonyms, s.synonym = normalize_text raw) :
    update_synonym_from_feedback db raw tid = db := by
  unfold update_synonym_from_feedback
  by_cases h1 : raw = ""
  · rw [if_pos h1]
  · rw [if_neg h1]
    dsimp only
    by_cases h2 : normalize_text raw = ""
    · rw [if_pos h2]
    · rw [if_neg h2]
      cases hm : find_matching_tag raw db with
      | none => exact add_synonym_noop_of_present hp
      | some m =>
        dsimp only
        by_cases h3 : (m.tag_id == tid && (m.method == "exact" || m.method == "synonym")) = true
        · rw [if_pos h3]
        · rw [if_neg h3]
          exact add_synonym_noop_of_present hp

/-- C4 (amended: the insert happens only when no Synonym row with the same
normalized text exists yet — the synonym column is globally unique and
`INSERT OR IGNORE` drops the new mapping otherwise — and the raw text must
normalize to a non-empty string and the confirmed tag must exist).  Under
those conditions, on a raw text that does not already resolve to the
confirmed tag via the exact or synonym method, one Synonym row mapping the
normalized raw text to the confirmed tag is appended, exactly one row with
that normalized text exists afterwards, and running the operation again
changes nothing (idempotent, and by construction the model never raises). -/
theorem synonym_feedback_insert_idempotent (db : Db) (raw : String) (tid : Nat)
    (hraw : raw ≠ "")
    (hnorm : normalize_text raw ≠ "")
    (hres : ∀ m, find_matching_tag raw db = some m →
      ¬ (m.tag_id = tid ∧ (m.method = "exact" ∨ m.method = "synonym")))
    (hfresh : ∀ s ∈ db.synonyms, s.synonym ≠ normalize_text raw)
    (htag : ∃ t ∈ db.tags, t.id = tid) :
    (update_synonym_from_feedback db raw tid).synonyms
      = db.synonyms ++ [⟨normalize_text raw, tid⟩] ∧
    ((update_synonym_from_feedback db raw tid).synonyms.filter
      (fun s => s.synonym == normalize_text raw)).length = 1 ∧
    update_synonym_from_feedback (update_synonym_from_feedback db raw tid) raw tid
      = update_synonym_from_feedback db raw tid := by
  have hadd : add_synonym db (normalize_text raw) tid
      = { db with synonyms := db.synonyms ++ [⟨normalize_text raw, tid⟩] } := by
    have hany1 : (db.synonyms.any fun s => s.synonym == normalize_text raw) = false := by
      rw [Bool.eq_false_iff]
      intro hany
      rw [List.any_eq_true] at hany
      obtain ⟨s, hs, he⟩ := hany
      exact hfresh s hs (by simpa using he)
    have hany2 : (db.tags.any fun t => t.id == tid) = true := by
      rw [List.any_eq_true]
      obtain ⟨t, ht, he⟩ := htag
      exact ⟨t, ht, by simp [he]⟩
    unfold add_synonym
    rw [hany1, hany2]
    simp
  have hupd : update_synonym_from_feedback db raw tid
      = { db with synonyms := db.synonyms ++ [⟨normalize_text raw, tid⟩] } := by
    unfold update_synonym_from_feedback
    rw [if_neg hraw]
    dsimp only
    rw [if_neg hnorm]
    cases hm : find_matching_tag raw db with
    | none => exact hadd
    | some m =>
      dsimp only
      have hcond : (m.tag_id == tid && (m.method == "exact" || m.method == "synonym"))
          = false := by
        rw [Bool.eq_false_iff]
        intro hb
        apply hres m hm
        rw [Bool.and_eq_true, Bool.or_eq_true] at hb
        refine ⟨by simpa using hb.1, ?_⟩
        rcases hb.2 with h | h
        · exact Or.inl (by simpa using h)
        · exact Or.inr (by simpa using h)
      rw [hcond]
      simp only [Bool.false_eq_true, if_false]
      exact hadd
  refine ⟨by rw [hupd], ?_, ?_⟩
  · rw [hupd]
    show ((db.synonyms ++ [(⟨normalize_text raw, tid⟩ : SynRow)]).filter
      (fun s => s.synonym == normalize_text raw)).length = 1
    rw [List.filter_append]
    have h1 : db.synonyms.filter (fun s => s.synonym == normalize_text raw) = [] := by
      rw [List.filter_eq_nil_iff]
      intro s hs
      simpa using hfresh s hs
    rw [h1]
    simp
  · apply update_synonym_noop_of_present
    rw [hupd]
    exact ⟨⟨normalize_text raw, tid⟩, by simp, rfl⟩

/-- C4 counterexample to the unamended claim: the synonym text `엑스`
already maps to tag 1, the user confirms tag 2 for raw text `엑스` (which
does not resolve to tag 2 — it resolves to tag 1 via the synonym method),
yet no Synonym row mapping `엑스` to tag 2 is created: the unique-synonym
constraint silently drops the insert. -/
theorem synonym_feedback_existing_synonym_cex :
    find_matching_tag "엑스"
        ⟨[⟨1, "가구", none, true⟩, ⟨2, "의자", none, true⟩], [⟨"엑스", 1⟩]⟩
      = some ⟨1, "가구", Rat.divInt 95 100, "synonym"⟩ ∧
    (update_synonym_from_feedback
        ⟨[⟨1, "가구", none, true⟩, ⟨2, "의자", none, true⟩], [⟨"엑스", 1⟩]⟩
        "엑스" 2).synonyms
      = [⟨"엑스", 1⟩] := by
  exact ⟨by decide, by decide⟩

/-- Witness for C4: confirming tag 1 for the unresolvable raw text `틀어짐`
creates exactly the one expected synonym row. -/
theorem synonym_feedback_insert_idempotent_witness :
    (update_synonym_from_feedback ⟨[⟨1, "상판 변형", none, true⟩], []⟩ "틀어짐" 1).synonyms
      = [⟨"틀어짐", 1⟩] := by
  have h := synonym_feedback_insert_idempotent ⟨[⟨1, "상판 변형", none, true⟩], []⟩
    "틀어짐" 1 (by decide) (by decide)
    (fun m hm => by
      rw [(by decide : find_matching_tag "틀어짐"
        (⟨[⟨1, "상판 변형", none, true⟩], []⟩ : Db) = none)] at hm
      exact Option.noConfusion hm)
    (by decide)
    ⟨⟨1, "상판 변형", none, true⟩, by decide, rfl⟩
  exact h.1.trans (by decide)

/-! ### Aggregation engine (src/core/aggregator.py) -/

/-- `ANOMALY_CONSECUTIVE` of src/config.py. -/
def ANOMALY_CONSECUTIVE : Nat := 3

/-- An anomaly record of `detect_anomalies`.  The free-text `detail` field
of the source (formatted floats) is presentation data and is not modelled;
the claims speak only about type, subject and months. -/
structure Anomaly where
  type : String
  subject : String
  months : List String
deriving DecidableEq, Repr

/-- The slice of `multi_month_trend` output that `detect_anomalies` reads:
the ordered month list and the per-product and per-tag count series
(month-keyed association lists, missing months count 0). -/
structure TrendData where
  months : List String
  by_product_month : List (String × List (String × Int))
  by_tag_month : List (String × List (String × Int))
deriving Repr

/-- The consecutive-increase loop of `detect_anomalies`: walk the series
from index 1 with the running streak counter, incrementing it on a strict
increase and resetting it to 0 otherwise, and emit one anomaly covering the
month window `months[i - streak .. i]` whenever the streak is at least the
threshold. -/
def consecScan (subject : String) (months : List String) :
    Nat → Nat → Int → List Int → List Anomaly
  | _, _, _, [] => []
  | streak, i, prev, v :: rest =>
    let streak2 := if prev < v then streak + 1 else 0
    (if ANOMALY_CONSECUTIVE ≤ streak2 then
      [⟨"consecutive_increase", subject, (months.drop (i - streak2)).take (streak2 + 1)⟩]
    else []) ++ consecScan subject months streak2 (i + 1) v rest

/-- The consecutive-increase anomalies of one value series. -/
def consecutive_anomalies (subject : String) (months : List String)
    (values : List Int) : List Anomaly :=
  match values with
  | [] => []
  | v :: rest => consecScan subject months 0 1 v rest

/-- The spike test of `detect_anomalies`: with at least 3 data points, mean
and sample standard deviation over all but the last value, the source fires
when `stdev > 0 and values[-1] > 0` and the z-score `(last - mean) / stdev`
is at least `ANOMALY_ZSCORE = 2.0`.  The test is encoded exactly in integer
arithmetic: with `n` and `S` the length and sum of the prefix,
`T = n*last - S` and `V = Σ (n*x - S)^2`, one has `stdev > 0` iff `0 < V`
and `z ≥ 2` iff `0 ≤ T` and `4*V ≤ T^2*(n-1)` (see the spike theorem, which
proves this encoding equal to the real-number condition). -/
def spike_anomalies (subject : String) (months : List String)
    (values : List Int) : List Anomaly :=
  if 3 ≤ values.length then
    let init := values.dropLast
    let lastV := values.getLastD 0
    let n : Int := init.length
    let s : Int := init.sum
    let t := n * lastV - s
    let v := (init.map fun x => (n * x - s) ^ 2).sum
    if 0 < v ∧ 0 < lastV ∧ 0 ≤ t ∧ 4 * v ≤ t ^ 2 * (n - 1) then
      [⟨"spike", subject, [months.getLastD ""]⟩]
    else []
  else []

/-- `detect_anomalies` of aggregator.py: for the product-keyed and then the
tag-keyed series, for every subject, read its month-ordered value series
(0 for missing months) and emit the consecutive-increase anomalies followed
by the spike anomalies. -/
def detect_anomalies (trend_data : TrendData) : List Anomaly :=
  ([("품목", trend_data.by_product_month), ("태그", trend_data.by_tag_month)] :
      List (String × List (String × List (String × Int)))).flatMap
    fun lp =>
      lp.2.flatMap fun sp =>
        let values := trend_data.months.map fun m => (sp.2.lookup m).getD 0
        let subject := lp.1 ++ ": " ++ sp.1
        consecutive_anomalies subject trend_data.months values ++
          spike_anomalies subject trend_data.months values

/-- A row of the tagged-cases-by-month query, as far as `month_over_month`
totals are concerned. -/
structure TaggedRow where
  product_group : Option String := none
  standard_tag : Option String := none
deriving DecidableEq, Repr

/-- The totals slice of the `month_over_month` result.  The per-product and
per-tag breakdowns and the top-increases list of the source are further
fields not touched by any claim and not modelled here. -/
structure MoMTotals where
  current_total : Nat
  previous_total : Nat
  delta : Int
  delta_pct : ℚ
deriving DecidableEq, Repr

/-- `month_over_month` of aggregator.py restricted to its totals: counts of
the two months' tagged rows, their difference, and
`delta / previous_total * 100` guarded to 0 when the previous total is 0
(the function never raises). -/
def month_over_month (cur_data prev_data : List TaggedRow) : MoMTotals :=
  let cur_total := cur_data.length
  let prev_total := prev_data.length
  let delta : Int := (cur_total : Int) - (prev_total : Int)
  { current_total := cur_total
    previous_total := prev_total
    delta := delta
    delta_pct := if prev_total = 0 then 0 else Rat.divInt (delta * 100) prev_total }

/-- Python truthiness on the stored cost,
`row["total_cost"] if row and row["total_cost"] else 0`: a missing row, a
NULL cost and a zero cost all give 0. -/
def pyCost (row : Option (Option ℚ)) : ℚ :=
  (row.bind id).getD 0

/-- Multiplication of a rational by a natural through `Rat.divInt`;
extensionally `a * n`. -/
def qmulNat (a : ℚ) (n : Nat) : ℚ :=
  Rat.divInt (a.num * n) a.den

/-- The result of `get_cost_comparison`. -/
structure CostComparison where
  current_cost : ℚ
  previous_cost : ℚ
  delta : ℚ
  delta_pct : ℚ
deriving DecidableEq, Repr

/-- `get_cost_comparison` of aggregator.py: the two recorded monthly costs
(0 when absent), their difference, and `delta / previous_cost * 100`
guarded to 0 when the previous cost is 0; never raises. -/
def get_cost_comparison (cur prev : Option (Option ℚ)) : CostComparison :=
  let cur_cost := pyCost cur
  let prev_cost := pyCost prev
  let delta := qsub cur_cost prev_cost
  { current_cost := cur_cost
    previous_cost := prev_cost
    delta := delta
    delta_pct := if prev_cost = 0 then 0 else qmulNat (qdiv delta prev_cost) 100 }

theorem qmulNat_eq (a : ℚ) (n : Nat) : qmulNat a n = a * n := by
  have h1 : (a.den : ℚ) ≠ 0 := by exact_mod_cast a.den_nz
  have ha : (a.num : ℚ) = a * a.den := (div_eq_iff h1).mp (Rat.num_div_den a)
  rw [qmulNat, Rat.divInt_eq_div]
  push_cast
  field_simp
  rw [ha]
  ring

/-! ### Claim C6 -/

theorem consecScan_no_increase (subject : String) (months : List String) :
    ∀ (rest : List Int) (streak i : Nat) (prev : Int),
      List.Chain' (fun a b => ¬ a < b) (prev :: rest) →
      consecScan subject months streak i prev rest = [] := by
  intro rest
  induction rest with
  | nil => intro streak i prev h; rfl
  | cons v t ih =>
    intro streak i prev h
    rw [List.chain'_cons] at h
    unfold consecScan
    dsimp only
    rw [if_neg h.1, if_neg (by decide : ¬ ANOMALY_CONSECUTIVE ≤ 0)]
    rw [List.nil_append]
    exact ih 0 (i + 1) v h.2

/-- C6: the consecutive-increase detector emits, for any product-keyed or
tag-keyed series, exactly one anomaly covering all four months for the
series `[2, 3, 5, 8]` (the spike detector's output is a different anomaly
type); nothing for the series `[5, 3, 4, 2]`, whose lone increases reset the
streak; and in general nothing for a series with no strict step-over-step
increase at all, since the streak counter resets at every non-increase. -/
theorem consecutive_increase_series_spec :
    ((detect_anomalies ⟨["2025-01", "2025-02", "2025-03", "2025-04"],
        [("책상", [("2025-01", 2), ("2025-02", 3), ("2025-03", 5), ("2025-04", 8)])],
        []⟩).filter fun a => a.type == "consecutive_increase")
      = [⟨"consecutive_increase", "품목: 책상",
          ["2025-01", "2025-02", "2025-03", "2025-04"]⟩] ∧
    ((detect_anomalies ⟨["2025-01", "2025-02", "2025-03", "2025-04"],
        [],
        [("휨", [("2025-01", 5), ("2025-02", 3), ("2025-03", 4), ("2025-04", 2)])]⟩).filter
        fun a => a.type == "consecutive_increase")
      = [] ∧
    (∀ (subject : String) (months : List String) (values : List Int),
      List.Chain' (fun a b => ¬ a < b) values →
      consecutive_anomalies subject months values = []) := by
  refine ⟨by decide, by decide, ?_⟩
  intro subject months values h
  cases values with
  | nil => rfl
  | cons v rest => exact consecScan_no_increase subject months rest 0 1 v h

/-- Witness for C6's general part on a never-increasing series. -/
theorem consecutive_increase_series_witness :
    consecutive_anomalies "품목: 선반" ["2025-01", "2025-02", "2025-03", "2025-04"]
      [5, 3, 3, 2] = [] :=
  consecutive_increase_series_spec.2.2 _ _ _ (by norm_num [List.chain'_cons])

/-! ### Claim C7 -/

theorem two_sqrt_le_iff {v d : ℝ} (hv : 0 < v) :
    2 * Real.sqrt v ≤ d ↔ 0 ≤ d ∧ 4 * v ≤ d ^ 2 := by
  constructor
  · intro h
    have hs : 0 ≤ Real.sqrt v := Real.sqrt_nonneg v
    have hd : 0 ≤ d := le_trans (by positivity) h
    have hsq : Real.sqrt v ^ 2 = v := Real.sq_sqrt hv.le
    exact ⟨hd, by nlinarith⟩
  · rintro ⟨hd, h4⟩
    have h1 : Real.sqrt (4 * v) ≤ Real.sqrt (d ^ 2) := Real.sqrt_le_sqrt h4
    rw [Real.sqrt_sq hd] at h1
    calc 2 * Real.sqrt v = Real.sqrt (4 * v) := by
          rw [show (4 : ℝ) * v = 2 ^ 2 * v by ring, Real.sqrt_mul (by positivity) v,
            Real.sqrt_sq (by norm_num)]
      _ ≤ d := h1

theorem list_sum_intCast (l : List ℤ) :
    ((l.sum : ℤ) : ℝ) = (l.map fun x : ℤ => (x : ℝ)).sum := by
  push_cast
  rfl

theorem list_sum_div (l : List ℤ) (f : ℤ → ℝ) (c : ℝ) :
    (l.map fun a => f a / c).sum = (l.map f).sum / c := by
  induction l with
  | nil => simp
  | cons x xs ih => simp only [List.map_cons, List.sum_cons, ih, add_div]

/-- The integer encoding of the spike test equals the real-number condition
of the source: positive sample variance, positive last value and z-score at
least 2 for the mean and sample standard deviation of the prefix. -/
theorem spike_cond_iff (init : List Int) (lastV : Int) (hn : 2 ≤ init.length) :
    (0 < (init.map fun x => ((init.length : Int) * x - init.sum) ^ 2).sum ∧
      0 < lastV ∧
      0 ≤ (init.length : Int) * lastV - init.sum ∧
      4 * (init.map fun x => ((init.length : Int) * x - init.sum) ^ 2).sum ≤
        ((init.length : Int) * lastV - init.sum) ^ 2 * ((init.length : Int) - 1)) ↔
    (0 < (init.map fun x : ℤ =>
        ((x : ℝ) - (init.sum : ℝ) / (init.length : ℝ)) ^ 2).sum /
        ((init.length : ℝ) - 1) ∧
      0 < lastV ∧
      2 * Real.sqrt ((init.map fun x : ℤ =>
          ((x : ℝ) - (init.sum : ℝ) / (init.length : ℝ)) ^ 2).sum /
          ((init.length : ℝ) - 1)) ≤
        (lastV : ℝ) - (init.sum : ℝ) / (init.length : ℝ)) := by
  have hn0 : (0 : ℝ) < (init.length : ℝ) := by
    have h2 : (2 : ℝ) ≤ (init.length : ℝ) := by exact_mod_cast hn
    linarith
  have hn1 : (0 : ℝ) < (init.length : ℝ) - 1 := by
    have h2 : (2 : ℝ) ≤ (init.length : ℝ) := by exact_mod_cast hn
    linarith
  have hden : (0 : ℝ) < ((init.length : ℝ)) ^ 2 * ((init.length : ℝ) - 1) :=
    mul_pos (pow_pos hn0 2) hn1
  set V : ℤ := (init.map fun x => ((init.length : Int) * x - init.sum) ^ 2).sum with hV
  set T : ℤ := (init.length : Int) * lastV - init.sum with hT
  have hvar : (init.map fun x : ℤ =>
      ((x : ℝ) - (init.sum : ℝ) / (init.length : ℝ)) ^ 2).sum / ((init.length : ℝ) - 1)
      = (V : ℝ) / (((init.length : ℝ)) ^ 2 * ((init.length : ℝ) - 1)) := by
    have hmap : init.map (fun x : ℤ =>
        ((x : ℝ) - (init.sum : ℝ) / (init.length : ℝ)) ^ 2)
        = init.map (fun x : ℤ =>
            ((((init.length : Int) * x - init.sum : ℤ)) : ℝ) ^ 2 / ((init.length : ℝ)) ^ 2) := by
      apply List.map_congr_left
      intro x hx
      push_cast
      field_simp
      ring
    have hsum : (init.map fun x : ℤ =>
        ((((init.length : Int) * x - init.sum : ℤ)) : ℝ) ^ 2).sum = (V : ℝ) := by
      rw [hV, list_sum_intCast, List.map_map]
      congr 1
      apply List.map_congr_left
      intro x hx
      simp only [Function.comp]
      push_cast
      ring
    rw [hmap, list_sum_div _ (fun x : ℤ =>
      ((((init.length : Int) * x - init.sum : ℤ)) : ℝ) ^ 2) _, hsum, div_div]
  have hd_eq : (lastV : ℝ) - (init.sum : ℝ) / (init.length : ℝ) = (T : ℝ) / (init.length : ℝ) := by
    rw [hT]
    push_cast
    field_simp
    ring
  rw [hvar, hd_eq]
  have hVpos : (0 < V) ↔ (0 < (V : ℝ) / (((init.length : ℝ)) ^ 2 * ((init.length : ℝ) - 1))) := by
    constructor
    · intro h
      exact div_pos (by exact_mod_cast h) hden
    · intro h
      rw [div_pos_iff] at h
      rcases h with ⟨h1, -⟩ | ⟨-, h2⟩
      · exact_mod_cast h1
      · exact absurd hden (not_lt.mpr h2.le)
  have hmain : (0 ≤ T ∧ 4 * V ≤ T ^ 2 * ((init.length : Int) - 1)) ↔
      ((0 : ℝ) ≤ (T : ℝ) / (init.length : ℝ) ∧
        4 * ((V : ℝ) / (((init.length : ℝ)) ^ 2 * ((init.length : ℝ) - 1))) ≤
          ((T : ℝ) / (init.length : ℝ)) ^ 2) := by
    have hrw : (4 : ℝ) * ((V : ℝ) / (((init.length : ℝ)) ^ 2 * ((init.length : ℝ) - 1)))
        = (4 * (V : ℝ)) / (((init.length : ℝ)) ^ 2 * ((init.length : ℝ) - 1)) := by
      ring
    constructor
    · rintro ⟨h3, h4⟩
      have h3r : (0 : ℝ) ≤ (T : ℝ) := by exact_mod_cast h3
      have h4r : (4 : ℝ) * (V : ℝ) ≤ (T : ℝ) ^ 2 * ((init.length : ℝ) - 1) := by
        exact_mod_cast h4
      refine ⟨div_nonneg h3r hn0.le, ?_⟩
      rw [div_pow, hrw, div_le_div_iff hden (pow_pos hn0 2)]
      nlinarith [mul_le_mul_of_nonneg_right h4r (sq_nonneg ((init.length : ℝ)))]
    · rintro ⟨hd, h4⟩
      have h3 : (0 : ℝ) ≤ (T : ℝ) := by
        by_contra hTneg
        push_neg at hTneg
        exact absurd hd (not_le.mpr (div_neg_of_neg_of_pos hTneg hn0))
      rw [div_pow, hrw, div_le_div_iff hden (pow_pos hn0 2)] at h4
      have hsq : (0 : ℝ) < ((init.length : ℝ)) ^ 2 := pow_pos hn0 2
      have h5 : (4 : ℝ) * (V : ℝ) ≤ (T : ℝ) ^ 2 * ((init.length : ℝ) - 1) := by
        nlinarith
      exact ⟨by exact_mod_cast h3, by exact_mod_cast h5⟩
  constructor
  · rintro ⟨h1, h2, h3, h4⟩
    refine ⟨hVpos.mp h1, h2, ?_⟩
    exact (two_sqrt_le_iff (hVpos.mp h1)).mpr (hmain.mp ⟨h3, h4⟩)
  · rintro ⟨h1, h2, h3⟩
    have h4 := hmain.mpr ((two_sqrt_le_iff h1).mp h3)
    exact ⟨hVpos.mpr h1, h2, h4.1, h4.2⟩

/-- C7: the spike detector fires for a series only when it has at least 3
data points, the sample standard deviation over all values but the last is
strictly positive, the last value is strictly positive and the z-score
`(last - mean) / stdev` is at least 2.0; the emitted anomaly covers only the
last month.  Concretely, `detect_anomalies` on the series `[10, 11, 9, 50]`
yields exactly one spike on the last month, and on the constant series
`[10, 10, 10, 10]` (zero standard deviation) yields none. -/
theorem spike_detection_spec :
    (∀ (subject : String) (months : List String) (values : List Int),
      spike_anomalies subject months values ≠ [] →
        3 ≤ values.length ∧
        0 < (values.dropLast.map fun x : ℤ =>
            ((x : ℝ) - (values.dropLast.sum : ℝ) / (values.dropLast.length : ℝ)) ^ 2).sum /
            ((values.dropLast.length : ℝ) - 1) ∧
        0 < values.getLastD 0 ∧
        2 * Real.sqrt ((values.dropLast.map fun x : ℤ =>
            ((x : ℝ) - (values.dropLast.sum : ℝ) / (values.dropLast.length : ℝ)) ^ 2).sum /
            ((values.dropLast.length : ℝ) - 1)) ≤
          (values.getLastD 0 : ℝ) - (values.dropLast.sum : ℝ) / (values.dropLast.length : ℝ) ∧
        spike_anomalies subject months values = [⟨"spike", subject, [months.getLastD ""]⟩]) ∧
    ((detect_anomalies ⟨["2025-01", "2025-02", "2025-03", "2025-04"],
        [("의자", [("2025-01", 10), ("2025-02", 11), ("2025-03", 9), ("2025-04", 50)])],
        []⟩).filter fun a => a.type == "spike")
      = [⟨"spike", "품목: 의자", ["2025-04"]⟩] ∧
    ((detect_anomalies ⟨["2025-01", "2025-02", "2025-03", "2025-04"],
        [],
        [("균열", [("2025-01", 10), ("2025-02", 10), ("2025-03", 10), ("2025-04", 10)])]⟩).filter
        fun a => a.type == "spike")
      = [] := by
  refine ⟨?_, by decide, by decide⟩
  intro subject months values h
  unfold spike_anomalies at h ⊢
  by_cases hlen : 3 ≤ values.length
  case neg =>
    rw [if_neg hlen] at h
    exact absurd rfl h
  rw [if_pos hlen] at h ⊢
  dsimp only at h ⊢
  have hn : 2 ≤ values.dropLast.length := by
    rw [List.length_dropLast]
    omega
  split_ifs at h ⊢ with hc
  · obtain ⟨hv, hl, hz⟩ := (spike_cond_iff values.dropLast (values.getLastD 0) hn).mp hc
    exact ⟨hlen, hv, hl, hz, rfl⟩
  · exact absurd rfl h

/-- Witness for C7's general part at the series `[10, 11, 9, 50]`. -/
theorem spike_detection_witness :
    3 ≤ ([10, 11, 9, 50] : List Int).length ∧
    0 < ([10, 11, 9, 50] : List Int).getLastD 0 := by
  have h := spike_detection_spec.1 "품목: 의자"
    ["2025-01", "2025-02", "2025-03", "2025-04"] [10, 11, 9, 50] (by decide)
  exact ⟨h.1, h.2.2.1⟩

/-! ### Claim C8 -/

/-- C8: `month_over_month` with previous total 0 returns `delta_pct = 0`
regardless of the delta, and `get_cost_comparison` applies the same
zero-guard when the previous month's recorded cost is absent, NULL or zero;
both are total functions, so no division-by-zero error can be raised. -/
theorem zero_guard_delta_pct :
    (∀ cur_data prev_data : List TaggedRow, prev_data.length = 0 →
      (month_over_month cur_data prev_data).delta_pct = 0) ∧
    (∀ cur prev : Option (Option ℚ),
      prev = none ∨ prev = some none ∨ prev = some (some 0) →
      (get_cost_comparison cur prev).delta_pct = 0) := by
  constructor
  · intro cur_data prev_data h
    unfold month_over_month
    dsimp only
    rw [if_pos h]
  · intro cur prev h
    have hp : pyCost prev = 0 := by
      rcases h with h | h | h <;> rw [h] <;> rfl
    unfold get_cost_comparison
    dsimp only
    rw [if_pos hp]

/-- Witness for C8: one tagged row against an empty previous month, and a
recorded current cost against an absent previous cost. -/
theorem zero_guard_delta_pct_witness :
    (month_over_month [⟨none, none⟩] []).delta_pct = 0 ∧
    (get_cost_comparison (some (some 5)) none).delta_pct = 0 :=
  ⟨zero_guard_delta_pct.1 _ _ rfl, zero_guard_delta_pct.2 _ _ (Or.inl rfl)⟩

/-! ### LLM batch processing (src/core/llm_client.py) -/

/-- A case as `process_cases_in_batches` consumes it: only the `id` key is
read (for the `db_case_id` mapping); everything else travels opaquely to the
LLM call, which the oracle parameter models. -/
structure LLMCase where
  id : Option Nat := none
deriving DecidableEq, Repr

/-- One per-case result of the `extract_causes_batch` tool call. -/
structure LLMResult where
  case_index : Int := 1
  tags : List String := []
  summary : String := ""
deriving DecidableEq, Repr

/-- One record of the `process_cases_in_batches` output.  A success-path
result dict carries no `error` key in the source; reading the absent key
yields a falsy value, modelled as `error = false`. -/
structure BatchOut where
  case_index : Int
  db_case_id : Option Nat
  tags : List String
  summary : String
  error : Bool
deriving DecidableEq, Repr

/-- Python list indexing `xs[n]`: a negative index wraps once from the end;
anything else out of range has no value (IndexError). -/
def pyGet (xs : List α) (n : Int) : Option α :=
  if 0 ≤ n then xs.get? n.toNat
  else if (-n).toNat ≤ xs.length then xs.get? (xs.length - (-n).toNat)
  else none

/-- The result-mapping loop of a successful batch: for each result, the
source computes `actual_idx = i + case_index - 1` and, when it is below the
total, stores `db_case_id` from `all_cases[actual_idx]`; an out-of-range
(strongly negative) index raises IndexError inside the loop, which the
batch-level handler catches — modelled as `none`. -/
def okMap (all_cases : List LLMCase) (total : Nat) (offset : Nat) :
    List LLMResult → Option (List BatchOut)
  | [] => some []
  | r :: rs =>
    let actual : Int := (offset : Int) + (r.case_index - 1)
    let head : Option BatchOut :=
      if actual < (total : Int) then
        match pyGet all_cases actual with
        | some c => some ⟨r.case_index, c.id, r.tags, r.summary, false⟩
        | none => none
      else some ⟨r.case_index, none, r.tags, r.summary, false⟩
    match head, okMap all_cases total offset rs with
    | some h, some t => some (h :: t)
    | _, _ => none

/-- The per-case error records of a failed batch, `enumerate(batch)` styled:
1-based case index, the case's id, an empty tag list, the summary
`오류: <message>` and the error marker set. -/
def errBlockGo (e : String) : Nat → List LLMCase → List BatchOut
  | _, [] => []
  | j, c :: cs =>
    ⟨(j : Int) + 1, c.id, [], "오류: " ++ e, true⟩ :: errBlockGo e (j + 1) cs

/-- All error records of a failed batch. -/
def errBlock (batch : List LLMCase) (e : String) : List BatchOut :=
  errBlockGo e 0 batch

/-- One iteration of the batch loop: one LLM call; an exception
(`Except.error`, covering rate-limit exhaustion and API errors surfaced by
`_call_with_retry`) turns the whole batch into error records, as does an
IndexError inside the success mapping loop. -/
def batchBlock (llm : List LLMCase → Except String (List LLMResult))
    (all_cases : List LLMCase) (total : Nat) (offset : Nat)
    (batch : List LLMCase) : List BatchOut :=
  match llm batch with
  | .error e => errBlock batch e
  | .ok rs =>
    match okMap all_cases total offset rs with
    | some outs => outs
    | none => errBlock batch "list index out of range"

/-- The offset-annotated slices `all_cases[i : i + bs]` for
`i = 0, bs, 2*bs, ...`: the iteration structure of
`range(0, total, batch_size)`.  The fuel argument (the pending length at the
start) bounds the recursion, since each step consumes at least one pending
case when `bs > 0`; `bs = 0` makes the Python source raise ValueError and
yields no batches here. -/
def chunksGo (bs : Nat) : Nat → Nat → List LLMCase → List (Nat × List LLMCase)
  | 0, _, _ => []
  | _, _, [] => []
  | fuel + 1, off, pending =>
    (off, pending.take bs) :: chunksGo bs fuel (off + bs) (pending.drop bs)

/-- The batches of the run, with their offsets. -/
def chunksOf (bs : Nat) (cases : List LLMCase) : List (Nat × List LLMCase) :=
  chunksGo bs cases.length 0 cases

/-- `process_cases_in_batches` of llm_client.py: handle every batch in
order and concatenate the per-batch records; a failing batch contributes
its error records and the loop moves on to the next batch. -/
def process_cases_in_batches (llm : List LLMCase → Except String (List LLMResult))
    (all_cases : List LLMCase) (batch_size : Nat) : List BatchOut :=
  (chunksOf batch_size all_cases).flatMap fun ob =>
    batchBlock llm all_cases all_cases.length ob.1 ob.2

theorem errBlockGo_mem (e : String) :
    ∀ (cs : List LLMCase) (k j : Nat) (c : LLMCase), cs.get? j = some c →
      (⟨((k + j : Nat) : Int) + 1, c.id, [], "오류: " ++ e, true⟩ : BatchOut) ∈
        errBlockGo e k cs := by
  intro cs
  induction cs with
  | nil => intro k j c h; cases h
  | cons x xs ih =>
    intro k j c h
    cases j with
    | zero =>
      rw [List.get?_cons_zero] at h
      cases h
      exact List.mem_cons_self _ _
    | succ j2 =>
      rw [List.get?_cons_succ] at h
      have hmem := ih (k + 1) j2 c h
      rw [show k + 1 + j2 = k + (j2 + 1) by omega] at hmem
      exact List.mem_cons_of_mem _ hmem

/-- C5: if the LLM call for batch `m` raises (its retry budget exhausted)
with message `e`, the run's output is exactly the normally processed records
of the batches before `m`, then one error record per case of batch `m`
(empty tag list, `error = true`, the message appended to `오류: `), then the
normally processed records of the batches after `m` — a single failing batch
never aborts the multi-batch run and every other batch's results are
retained. -/
theorem batch_error_isolation (llm : List LLMCase → Except String (List LLMResult))
    (all_cases : List LLMCase) (batch_size : Nat) (m : Nat)
    (off : Nat) (batch : List LLMCase) (e : String)
    (hm : (chunksOf batch_size all_cases).get? m = some (off, batch))
    (he : llm batch = .error e) :
    process_cases_in_batches llm all_cases batch_size
      = ((chunksOf batch_size all_cases).take m).flatMap
          (fun ob => batchBlock llm all_cases all_cases.length ob.1 ob.2)
        ++ errBlock batch e
        ++ ((chunksOf batch_size all_cases).drop (m + 1)).flatMap
          (fun ob => batchBlock llm all_cases all_cases.length ob.1 ob.2) ∧
    (∀ j c, batch.get? j = some c →
      (⟨(j : Int) + 1, c.id, [], "오류: " ++ e, true⟩ : BatchOut) ∈
        process_cases_in_batches llm all_cases batch_size) := by
  obtain ⟨hlt, heq⟩ := List.get?_eq_some.mp hm
  have hsplit : chunksOf batch_size all_cases
      = (chunksOf batch_size all_cases).take m
        ++ (off, batch) :: (chunksOf batch_size all_cases).drop (m + 1) := by
    conv_lhs => rw [← List.take_append_drop m (chunksOf batch_size all_cases)]
    congr 1
    rw [List.drop_eq_getElem_cons hlt]
    congr 1
  have hblock : batchBlock llm all_cases all_cases.length off batch = errBlock batch e := by
    unfold batchBlock
    rw [he]
  have hmain : process_cases_in_batches llm all_cases batch_size
      = ((chunksOf batch_size all_cases).take m).flatMap
          (fun ob => batchBlock llm all_cases all_cases.length ob.1 ob.2)
        ++ errBlock batch e
        ++ ((chunksOf batch_size all_cases).drop (m + 1)).flatMap
          (fun ob => batchBlock llm all_cases all_cases.length ob.1 ob.2) := by
    unfold process_cases_in_batches
    conv_lhs => rw [hsplit]
    rw [List.flatMap_append, List.flatMap_cons]
    dsimp only
    rw [hblock, List.append_assoc]
  refine ⟨hmain, ?_⟩
  intro j c hj
  rw [hmain]
  have hmem : (⟨(j : Int) + 1, c.id, [], "오류: " ++ e, true⟩ : BatchOut)
      ∈ errBlock batch e := by
    have h0 := errBlockGo_mem e batch 0 j c hj
    simpa using h0
  exact List.mem_append.mpr (Or.inl (List.mem_append.mpr (Or.inr hmem)))

/-- Witness for C5: two one-case batches, the first LLM call raising
`boom`, the second succeeding; the first case's error record is in the
output. -/
theorem batch_error_isolation_witness :
    (⟨1, some 1, [], "오류: " ++ "boom", true⟩ : BatchOut) ∈
      process_cases_in_batches
        (fun batch => if batch = [⟨some 1⟩] then .error "boom"
          else .ok [⟨1, ["태그"], "요약"⟩])
        [⟨some 1⟩, ⟨some 2⟩] 1 :=
  (batch_error_isolation
      (fun batch => if batch = [⟨some 1⟩] then .error "boom"
        else .ok [⟨1, ["태그"], "요약"⟩])
      [⟨some 1⟩, ⟨some 2⟩] 1 0 0 [⟨some 1⟩] "boom" (by rfl) (by rfl)).2 0 ⟨some 1⟩ rfl

/-! ### Claim C9 -/

theorem hangulRunsAux_runs :
    ∀ (l cur : List Char), (∀ c ∈ cur, isHangulSyllable c = true) →
      ∀ r ∈ hangulRunsAux cur l, r ≠ [] ∧ ∀ c ∈ r, isHangulSyllable c = true := by
  intro l
  induction l with
  | nil =>
    intro cur hcur r hr
    unfold hangulRunsAux at hr
    by_cases hc : cur.isEmpty
    · rw [if_pos hc] at hr
      cases hr
    · rw [if_neg hc] at hr
      rw [List.mem_singleton] at hr
      subst hr
      refine ⟨?_, ?_⟩
      · intro hrev
        apply hc
        rw [List.isEmpty_iff]
        simpa using congrArg List.reverse hrev
      · intro c hcm
        exact hcur c (List.mem_reverse.mp hcm)
  | cons c cs ih =>
    intro cur hcur r hr
    unfold hangulRunsAux at hr
    by_cases h1 : isHangulSyllable c = true
    · rw [if_pos h1] at hr
      refine ih (c :: cur) ?_ r hr
      intro x hx
      rcases List.mem_cons.mp hx with h | h
      · subst h; exact h1
      · exact hcur x h
    · rw [if_neg h1] at hr
      by_cases h2 : cur.isEmpty
      · rw [if_pos h2] at hr
        exact ih [] (by simp) r hr
      · rw [if_neg h2] at hr
        rcases List.mem_cons.mp hr with h | h
        · subst h
          refine ⟨?_, ?_⟩
          · intro hrev
            apply h2
            rw [List.isEmpty_iff]
            simpa using congrArg List.reverse hrev
          · intro x hx
            exact hcur x (List.mem_reverse.mp hx)
        · exact ih [] (by simp) r h

theorem mem_dedupFirstAux [DecidableEq α] :
    ∀ (l seen : List α) (x : α), x ∈ dedupFirstAux seen l ↔ x ∈ l ∧ x ∉ seen := by
  intro l
  induction l with
  | nil => intro seen x; simp [dedupFirstAux]
  | cons y ys ih =>
    intro seen x
    unfold dedupFirstAux
    by_cases hy : y ∈ seen
    · rw [if_pos hy, ih]
      constructor
      · rintro ⟨h1, h2⟩
        exact ⟨List.mem_cons_of_mem _ h1, h2⟩
      · rintro ⟨h1, h2⟩
        rcases List.mem_cons.mp h1 with h | h
        · subst h; exact absurd hy h2
        · exact ⟨h, h2⟩
    · rw [if_neg hy]
      constructor
      · intro h1
        rcases List.mem_cons.mp h1 with h | h
        · subst h
          exact ⟨List.mem_cons_self _ _, hy⟩
        · obtain ⟨ha, hb⟩ := (ih (y :: seen) x).mp h
          refine ⟨List.mem_cons_of_mem _ ha, fun hs => hb (List.mem_cons_of_mem _ hs)⟩
      · rintro ⟨h1, h2⟩
        rcases List.mem_cons.mp h1 with h | h
        · subst h; exact List.mem_cons_self _ _
        · by_cases hxy : x = y
          · subst hxy; exact List.mem_cons_self _ _
          · refine List.mem_cons_of_mem _ ((ih (y :: seen) x).mpr ⟨h, ?_⟩)
            intro hs
            rcases List.mem_cons.mp hs with h3 | h3
            · exact hxy h3
            · exact h2 h3

theorem nodup_dedupFirstAux [DecidableEq α] :
    ∀ (l seen : List α), (dedupFirstAux seen l).Nodup := by
  intro l
  induction l with
  | nil => intro seen; simp [dedupFirstAux]
  | cons y ys ih =>
    intro seen
    unfold dedupFirstAux
    by_cases hy : y ∈ seen
    · rw [if_pos hy]
      exact ih seen
    · rw [if_neg hy]
      rw [List.nodup_cons]
      refine ⟨?_, ih (y :: seen)⟩
      intro hmem
      exact ((mem_dedupFirstAux ys (y :: seen) y).mp hmem).2 (List.mem_cons_self _ _)

/-- C9 (amended: the `min_length` parameter is accepted but never read — the
source regex hard-codes `[가-힣]{2,}` — so for every `min_length` the result
is the same: the maximal runs of Hangul syllables of length at least 2,
in first-occurrence order without duplicates). -/
theorem extract_keywords_amended :
    (∀ (s : String) (n k : Nat), extract_keywords s n = extract_keywords s k) ∧
    (∀ (s : String) (n : Nat) (w : String), w ∈ extract_keywords s n →
      2 ≤ w.data.length ∧ ∀ c ∈ w.data, isHangulSyllable c = true) ∧
    (∀ (s : String) (n : Nat), (extract_keywords s n).Nodup) ∧
    extract_keywords "가나다 라마 x바사" 5 = ["가나다", "라마", "바사"] := by
  refine ⟨fun s n k => rfl, ?_, fun s n => nodup_dedupFirstAux _ [], by decide⟩
  intro s n w hw
  unfold extract_keywords at hw
  have hw2 := (mem_dedupFirstAux _ [] w).mp hw
  rw [List.mem_map] at hw2
  obtain ⟨⟨r, hr, hrw⟩, -⟩ := hw2
  rw [List.mem_filter] at hr
  obtain ⟨hrun, hlen⟩ := hr
  have hprops := hangulRunsAux_runs s.data [] (by simp) r hrun
  subst hrw
  exact ⟨by simpa using hlen, hprops.2⟩

/-- C9 counterexample to the claim as stated: with `min_length = 3` the
claim excludes the two-syllable run `가나`, but `extract_keywords` returns
it — the parameter is ignored. -/
theorem extract_keywords_min_length_cex :
    "가나" ∈ extract_keywords "가나" 3 ∧ ("가나" : String).data.length < 3 :=
  ⟨by decide, by decide⟩

/-- Witness for C9's membership part: the run `가나다` extracted from a
concrete text is at least two syllables of Hangul. -/
theorem extract_keywords_amended_witness :
    2 ≤ ("가나다" : String).data.length ∧
      ∀ c ∈ ("가나다" : String).data, isHangulSyllable c = true :=
  extract_keywords_amended.2.1 "가나다 x" 2 "가나다" (by decide)

/-! ### Claim C10 -/

/-- A `case_tags` row as the similarity query reads it. -/
structure CaseTagRow where
  case_id : Nat
  tag_id : Nat
  is_final : Bool
deriving DecidableEq, Repr

/-- The tables joined by `get_similar_past_cases`. -/
structure CaseStore where
  repair_cases : List RepairCase := []
  case_tags : List CaseTagRow := []
  tag_dictionary : List Tag := []
deriving DecidableEq, Repr

/-- One row of the join as the SELECT projects it. -/
structure PastCase where
  action_notes : Option String
  request_details : Option String
  product_group : Option String
  standard_tag : String
deriving DecidableEq, Repr

/-- The SQL of `get_similar_past_cases`: the final case-tags joined to
their case and tag rows, the given case id excluded, optionally restricted
to one product group (a NULL product never matches the SQL equality),
ordered by `created_at` descending (the tie order among equal timestamps is
unspecified in SQL; the model uses a stable sort) and truncated to
`top_n * 5` rows, each paired with its `created_at` key. -/
def candidatePool (store : CaseStore) (caseId : Nat) (product : String)
    (top_n : Nat) : List (Nat × PastCase) :=
  let joined := store.case_tags.filterMap fun ct =>
    if ct.is_final then
      match store.repair_cases.find? (fun rc => rc.id == ct.case_id),
            store.tag_dictionary.find? (fun td => td.id == ct.tag_id) with
      | some rc, some td =>
        if rc.id ≠ caseId ∧ (product = "" ∨ rc.product_group = some product) then
          some (rc.created_at,
            ⟨rc.action_notes, rc.request_details, rc.product_group, td.standard_tag⟩)
        else none
      | _, _ => none
    else none
  (sortByB (fun a b => decide (b.1 ≤ a.1)) joined).take (top_n * 5)

/-- Keyword overlap of two keyword lists,
`len(set(target) & set(past))` — `extract_keywords` lists each keyword
once, so counting the target keywords occurring in the past list is the
intersection size. -/
def overlapCount (target past : List String) : Nat :=
  (target.filter fun w => past.contains w).length

/-- `get_similar_past_cases` of learning.py: empty action text gives no
result; otherwise each candidate of the recency-limited pool is scored by
the keyword overlap between the case's action text and the candidate's
combined text, zero-overlap candidates are dropped, the rest are sorted
stably by overlap descending (equal overlaps therefore stay in
most-recent-first pool order) and the first `top_n` are returned. -/
def get_similar_past_cases (store : CaseStore) (case : RepairCase)
    (top_n : Nat) : List PastCase :=
  let action := case.action_notes.getD ""
  let product := case.product_group.getD ""
  if action = "" then []
  else
    let rows := candidatePool store case.id product top_n
    let target_kw := extract_keywords action
    let scored := rows.filterMap fun tsr =>
      let past_text := (tsr.2.action_notes.getD "") ++ " " ++ (tsr.2.request_details.getD "")
      let overlap := overlapCount target_kw (extract_keywords past_text)
      if 0 < overlap then some (overlap, tsr.2) else none
    ((sortByB (fun a b => decide (b.1 ≤ a.1)) scored).take top_n).map fun sr => sr.2

theorem pairwise_orderedInsertB {le : α → α → Bool}
    (htot : ∀ a b, le a b = true ∨ le b a = true)
    (htrans : ∀ a b c, le a b = true → le b c = true → le a c = true) (x : α) :
    ∀ l : List α, l.Pairwise (fun a b => le a b = true) →
      (orderedInsertB le x l).Pairwise (fun a b => le a b = true) := by
  intro l
  induction l with
  | nil => intro h; simp [orderedInsertB]
  | cons y ys ih =>
    intro hp
    rw [List.pairwise_cons] at hp
    unfold orderedInsertB
    by_cases h : le x y = true
    · rw [if_pos h]
      rw [List.pairwise_cons]
      refine ⟨?_, List.pairwise_cons.mpr hp⟩
      intro b hb
      rcases List.mem_cons.mp hb with h2 | h2
      · subst h2; exact h
      · exact htrans x y b h (hp.1 b h2)
    · rw [if_neg h]
      rw [List.pairwise_cons]
      refine ⟨?_, ih hp.2⟩
      intro b hb
      rw [mem_orderedInsertB] at hb
      rcases hb with h2 | h2
      · rw [h2]
        rcases htot x y with h3 | h3
        · exact absurd h3 h
        · exact h3
      · exact hp.1 b h2

theorem pairwise_sortByB {le : α → α → Bool}
    (htot : ∀ a b, le a b = true ∨ le b a = true)
    (htrans : ∀ a b c, le a b = true → le b c = true → le a c = true) :
    ∀ l : List α, (sortByB le l).Pairwise (fun a b => le a b = true) := by
  intro l
  induction l with
  | nil => simp [sortByB]
  | cons x xs ih => exact pairwise_orderedInsertB htot htrans x _ ih

theorem scoredSpec (f : PastCase → Nat) (pool : List (Nat × PastCase)) (n : Nat) :
    ((((sortByB (fun a b : Nat × PastCase => decide (b.1 ≤ a.1))
        (pool.filterMap fun tsr =>
          if 0 < f tsr.2 then some (f tsr.2, tsr.2) else none)).take n).map
        fun sr => sr.2).length ≤ n) ∧
    (∀ r ∈ (((sortByB (fun a b : Nat × PastCase => decide (b.1 ≤ a.1))
        (pool.filterMap fun tsr =>
          if 0 < f tsr.2 then some (f tsr.2, tsr.2) else none)).take n).map
        fun sr => sr.2),
      ∃ p ∈ pool, p.2 = r ∧ 0 < f r) ∧
    ((((sortByB (fun a b : Nat × PastCase => decide (b.1 ≤ a.1))
        (pool.filterMap fun tsr =>
          if 0 < f tsr.2 then some (f tsr.2, tsr.2) else none)).take n).map
        fun sr => sr.2).Pairwise fun a b => f b ≤ f a) := by
  refine ⟨?_, ?_, ?_⟩
  · rw [List.length_map]
    exact List.length_take_le _ _
  · intro r hr
    rw [List.mem_map] at hr
    obtain ⟨sr, hsr, hsrr⟩ := hr
    have hs2 := (List.take_sublist _ _).subset hsr
    rw [mem_sortByB, List.mem_filterMap] at hs2
    obtain ⟨tsr, htsr, heq⟩ := hs2
    by_cases hov : 0 < f tsr.2
    · rw [if_pos hov] at heq
      have hsr2 : sr = (f tsr.2, tsr.2) := (Option.some.inj heq).symm
      refine ⟨tsr, htsr, ?_, ?_⟩
      · rw [← hsrr, hsr2]
      · rw [← hsrr, hsr2]
        exact hov
    · rw [if_neg hov] at heq
      cases heq
  · rw [List.pairwise_map]
    have hfact : ∀ p ∈ (sortByB (fun a b : Nat × PastCase => decide (b.1 ≤ a.1))
        (pool.filterMap fun tsr =>
          if 0 < f tsr.2 then some (f tsr.2, tsr.2) else none)).take n,
        p.1 = f p.2 := by
      intro p hp
      have hp2 := (List.take_sublist _ _).subset hp
      rw [mem_sortByB, List.mem_filterMap] at hp2
      obtain ⟨tsr, -, heq⟩ := hp2
      by_cases hov : 0 < f tsr.2
      · rw [if_pos hov] at heq
        have hpe := Option.some.inj heq
        rw [← hpe]
      · rw [if_neg hov] at heq
        cases heq
    have hpair := @pairwise_sortByB (Nat × PastCase) (fun a b => decide (b.1 ≤ a.1))
      (fun a b => by
        rcases Nat.le_total b.1 a.1 with h | h
        · exact Or.inl (decide_eq_true h)
        · exact Or.inr (decide_eq_true h))
      (fun a b c h1 h2 =>
        decide_eq_true (le_trans (of_decide_eq_true h2) (of_decide_eq_true h1)))
      (pool.filterMap fun tsr => if 0 < f tsr.2 then some (f tsr.2, tsr.2) else none)
    have htake := List.Pairwise.sublist (List.take_sublist n _) hpair
    apply List.Pairwise.imp_of_mem ?_ htake
    intro a b ha hb hrel
    rw [← hfact a ha, ← hfact b hb]
    exact of_decide_eq_true hrel

/-- C10 (amended: the ranking runs over the recency-limited candidate pool —
the `top_n * 5` most recently created finalized rows — not over all
finalized cases).  The result holds at most `top_n` rows, every returned row
comes from the pool with strictly positive keyword overlap against the
case's action text, and the returned rows are ordered by non-increasing
overlap (the stable sort leaves equal overlaps most-recent-first). -/
theorem similar_cases_pool_spec (store : CaseStore) (case : RepairCase) (top_n : Nat) :
    (get_similar_past_cases store case top_n).length ≤ top_n ∧
    (∀ r ∈ get_similar_past_cases store case top_n,
      ∃ p ∈ candidatePool store case.id (case.product_group.getD "") top_n,
        p.2 = r ∧
        0 < overlapCount (extract_keywords (case.action_notes.getD ""))
          (extract_keywords
            ((r.action_notes.getD "") ++ " " ++ (r.request_details.getD "")))) ∧
    ((get_similar_past_cases store case top_n).Pairwise fun a b =>
      overlapCount (extract_keywords (case.action_notes.getD ""))
          (extract_keywords ((b.action_notes.getD "") ++ " " ++ (b.request_details.getD "")))
        ≤ overlapCount (extract_keywords (case.action_notes.getD ""))
          (extract_keywords
            ((a.action_notes.getD "") ++ " " ++ (a.request_details.getD "")))) := by
  by_cases haction : case.action_notes.getD "" = ""
  · have hnil : get_similar_past_cases store case top_n = [] := by
      unfold get_similar_past_cases
      rw [if_pos haction]
    rw [hnil]
    refine ⟨by simp, by simp, by simp⟩
  · have hform : get_similar_past_cases store case top_n
        = (((sortByB (fun a b : Nat × PastCase => decide (b.1 ≤ a.1))
            ((candidatePool store case.id (case.product_group.getD "") top_n).filterMap
              fun tsr =>
                if 0 < overlapCount (extract_keywords (case.action_notes.getD ""))
                    (extract_keywords ((tsr.2.action_notes.getD "") ++ " " ++
                      (tsr.2.request_details.getD ""))) then
                  some (overlapCount (extract_keywords (case.action_notes.getD ""))
                    (extract_keywords ((tsr.2.action_notes.getD "") ++ " " ++
                      (tsr.2.request_details.getD ""))), tsr.2)
                else none)).take top_n).map (fun sr => sr.2)) := by
      unfold get_similar_past_cases
      rw [if_neg haction]
    rw [hform]
    exact scoredSpec (fun r => overlapCount (extract_keywords (case.action_notes.getD ""))
        (extract_keywords ((r.action_notes.getD "") ++ " " ++ (r.request_details.getD ""))))
      (candidatePool store case.id (case.product_group.getD "") top_n) top_n

/-- A store with six finalized cases: ids 1-5 are the most recent
(created_at 99..95) and share one keyword with the query text, id 6 is the
oldest (created_at 10) and shares two keywords. -/
def exStore : CaseStore :=
  { repair_cases := [
      ⟨1, none, none, some "가나다", none, none, 99⟩,
      ⟨2, none, none, some "가나다", none, none, 98⟩,
      ⟨3, none, none, some "가나다", none, none, 97⟩,
      ⟨4, none, none, some "가나다", none, none, 96⟩,
      ⟨5, none, none, some "가나다", none, none, 95⟩,
      ⟨6, none, none, some "가나다 라마바", none, none, 10⟩]
    case_tags := [⟨1, 1, true⟩, ⟨2, 1, true⟩, ⟨3, 1, true⟩,
      ⟨4, 1, true⟩, ⟨5, 1, true⟩, ⟨6, 1, true⟩]
    tag_dictionary := [⟨1, "태그", none, true⟩] }

/-- C10 counterexample to the claim as stated: for `top_n = 1` the SQL
limit keeps only the five most recent finalized rows, so the best-overlap
finalized case (id 6, overlap 2) is never scored and the returned case has
overlap 1 — the result is not the top-1 among all finalized cases.
Widening the pool (`top_n = 2`, limit 10) shows case 6 would rank first. -/
theorem similar_cases_recency_pool_cex :
    get_similar_past_cases exStore ⟨0, none, none, some "가나다 라마바", none, none, 0⟩ 1
      = [⟨some "가나다", none, none, "태그"⟩] ∧
    get_similar_past_cases exStore ⟨0, none, none, some "가나다 라마바", none, none, 0⟩ 2
      = [⟨some "가나다 라마바", none, none, "태그"⟩, ⟨some "가나다", none, none, "태그"⟩] ∧
    overlapCount (extract_keywords "가나다 라마바")
      (extract_keywords ("가나다" ++ " " ++ "")) = 1 ∧
    overlapCount (extract_keywords "가나다 라마바")
      (extract_keywords ("가나다 라마바" ++ " " ++ "")) = 2 :=
  ⟨by decide, by decide, by decide, by decide⟩

/-- Witness for C10's membership part: the single returned row of the
example store has strictly positive overlap with the query. -/
theorem similar_cases_pool_spec_witness :
    0 < overlapCount (extract_keywords "가나다 라마바")
      (extract_keywords ("가나다" ++ " " ++ "")) := by
  obtain ⟨p, hp, hpr, hov⟩ :=
    (similar_cases_pool_spec exStore
      ⟨0, none, none, some "가나다 라마바", none, none, 0⟩ 1).2.1
      ⟨some "가나다", none, none, "태그"⟩ (by decide)
  exact hov

end Desker
